import Mathlib

/-!
Verification of the paper-triage pipeline (`paper_triage` package).

This file gives a shallow embedding of the pure logic of the pipeline:

* `discover.py` — `discover_papers`, `_build_metadata_lookup`;
* `ui.py` — `triage_papers`, `_prompt_for_decision`, `_auto_decide`;
* `main.py` — `triage_once`'s archival/logging loop, `_unique_target`,
  `_resolve_decision_mode`, `maybe_send_email`;
* `log.py` — `append_log_entry`.

Filesystem paths are modelled as plain strings (already-normalised POSIX
paths, so path resolution is the identity); directories are modelled by
the list of names they contain; the enumeration `sorted(folder.rglob("*.pdf"))`
is modelled by the folder's `pdfs` list.  Timestamps are abstracted to a
per-run string.  Interactive input is a canned list of answer strings per
candidate; the external summariser is an arbitrary pure function.
-/

/-- Characters after the last `'/'`: `acc` is the segment read so far. -/
def pathNameAux : List Char → List Char → List Char
  | acc, [] => acc
  | acc, c :: cs => if c = '/' then pathNameAux [] cs else pathNameAux (acc ++ [c]) cs

/-- Final path component, as Python `Path(p).name` on a normalised path
(`"a/b.pdf"` ↦ `"b.pdf"`). -/
def pathName (p : String) : String :=
  ⟨pathNameAux [] p.data⟩

/-- Python `str.lower()` (ASCII case folding, which covers every character
the pipeline compares case-insensitively). -/
def lowerStr (s : String) : String :=
  ⟨s.data.map Char.toLower⟩

/-- Python `str.strip()`: whitespace removed from both ends. -/
def trimStr (s : String) : String :=
  ⟨((s.data.dropWhile Char.isWhitespace).reverse.dropWhile Char.isWhitespace).reverse⟩

/-- Index of the last `'.'` in a character list, if any. -/
def lastDotIdx : List Char → Option Nat
  | [] => none
  | c :: cs =>
    match lastDotIdx cs with
    | some i => some (i + 1)
    | none => if c = '.' then some 0 else none

/-- Python `pathlib`'s `(stem, suffix)` split of a final component: the
suffix is `name[i:]` for `i` the last dot index when `0 < i < len - 1`,
otherwise empty (so `"a.pdf"` ↦ `("a", ".pdf")`, `".bashrc"` ↦
`(".bashrc", "")`, `"file."` ↦ `("file.", "")`). -/
def pathStemSuffix (name : String) : String × String :=
  match lastDotIdx name.data with
  | some i =>
    if 0 < i ∧ i < name.length - 1 then
      (⟨name.data.take i⟩, ⟨name.data.drop i⟩)
    else (name, "")
  | none => (name, "")

/-- Python `Path(p).stem`. -/
def pathStem (p : String) : String :=
  (pathStemSuffix (pathName p)).1

/-- One metadata record, as produced by `_parse_bookmarks_json` /
`_parse_reference_export` in `discover.py` (a dict with `title`,
`file_key`, `source` and, for reference exports, `authors`/`year`). -/
structure MetadataRecord where
  title : String
  file_key : String
  authors : Option String := none
  year : Option String := none
  source : String
  deriving DecidableEq, Repr

/-- What processing one metadata source descriptor in
`_build_metadata_lookup` yields: the path may not exist (`missing`), the
`type` may be unrecognised (`unknownType`), parsing may raise
(`parseFailure`) — all three are skipped with a log message — or parsing
succeeds with a list of records. -/
inductive SourceOutcome where
  | missing
  | unknownType
  | parseFailure
  | parsed (records : List MetadataRecord)
  deriving Repr

/-- Records a source contributes to the lookup (skipped sources contribute
none). -/
def SourceOutcome.records : SourceOutcome → List MetadataRecord
  | .parsed rs => rs
  | _ => []

/-- The empty lookup (`lookup: Dict = {}`). -/
def emptyLookup : String → Option MetadataRecord := fun _ => none

/-- Python dict assignment `lookup[file_key] = record`. -/
def insertRecord (lookup : String → Option MetadataRecord) (r : MetadataRecord) :
    String → Option MetadataRecord :=
  fun k => if k = r.file_key then some r else lookup k

/-- The inner loop of `_build_metadata_lookup`: insert each record, skipping
records with a falsy (empty) `file_key`. -/
def insertRecords (lookup : String → Option MetadataRecord) (rs : List MetadataRecord) :
    String → Option MetadataRecord :=
  rs.foldl (fun lk r => if r.file_key = "" then lk else insertRecord lk r) lookup

/-- `_build_metadata_lookup` from `discover.py`: process each source in the
order given, inserting its records into one shared dict (so a later record
for the same `file_key` overwrites an earlier one wholesale). -/
def buildMetadataLookup (sources : List SourceOutcome) : String → Option MetadataRecord :=
  sources.foldl (fun lk s => insertRecords lk s.records) emptyLookup

/-- `PaperCandidate` from `discover.py`; `metadata = none` models the empty
dict default of `metadata_lookup.get(norm_key, {})`. -/
structure PaperCandidate where
  path : String
  title : String
  metadata : Option MetadataRecord := none
  deriving DecidableEq, Repr

/-- One input folder: whether `folder_path.exists()`, and the (sorted)
enumeration `sorted(folder_path.rglob("*.pdf"))` of its PDF paths. -/
structure Folder where
  present : Bool
  pdfs : List String
  deriving Repr

/-- Body of the per-file loop in `discover_papers`: compute the lookup key
and title, skip the file if its path was already emitted, otherwise record
it as seen and append a candidate. -/
def discoverStep (lookup : String → Option MetadataRecord)
    (st : List String × List PaperCandidate) (p : String) :
    List String × List PaperCandidate :=
  let seen := st.1
  let cands := st.2
  let normKey := lowerStr (pathName p)
  let info := lookup normKey
  let title :=
    match info with
    | some r => if r.title = "" then pathStem p else r.title
    | none => pathStem p
  if p ∈ seen then (seen, cands)
  else (p :: seen, cands ++ [{ path := p, title := title, metadata := info }])

/-- `discover_papers` from `discover.py`: build the metadata lookup, then
walk the folders in order (skipping absent ones with a warning), and for
each enumerated PDF run `discoverStep`. -/
def discover_papers (folders : List Folder) (sources : List SourceOutcome) :
    List PaperCandidate :=
  (folders.foldl
    (fun st folder =>
      if folder.present then folder.pdfs.foldl (discoverStep (buildMetadataLookup sources)) st
      else st)
    ([], [])).2

/-- The decimal digit characters used by Python's `f"{counter}"` formatting. -/
def digitChar (d : Nat) : Char :=
  match d with
  | 0 => '0' | 1 => '1' | 2 => '2' | 3 => '3' | 4 => '4'
  | 5 => '5' | 6 => '6' | 7 => '7' | 8 => '8' | _ => '9'

/-- Decimal digits of `n`, most significant first; structural recursion on
a fuel bound (any fuel above `n` yields the digits, see
`toDecimalGo_fuel`). -/
def toDecimalGo : Nat → Nat → List Char
  | 0, _ => []
  | fuel + 1, n =>
    if n < 10 then [digitChar n]
    else toDecimalGo fuel (n / 10) ++ [digitChar (n % 10)]

/-- Python's decimal rendering `f"{n}"` of a natural number. -/
def natToDecimal (n : Nat) : String :=
  ⟨toDecimalGo (n + 1) n⟩

/-- The value of a digit character (inverse of `digitChar` on digits). -/
def digitVal (c : Char) : Nat :=
  c.toNat - 48

/-- Read a digit list back into a number (left fold, standard positional
interpretation). -/
def ofDecimal (l : List Char) : Nat :=
  l.foldl (fun a c => a * 10 + digitVal c) 0

/-- The suffixed file name `f"{stem}-{counter}{suffix}"` tried by
`_unique_target` in `main.py`. -/
def mkSuffixed (st su : String) (k : Nat) : String :=
  st ++ "-" ++ natToDecimal k ++ su

/-- The `while True` loop of `_unique_target`, with explicit fuel (the loop
always terminates on a finite directory; `uniqueLoop_total` below shows the
fuel used by `uniqueTarget` suffices). -/
def uniqueLoop (existing : List String) (st su : String) : Nat → Nat → Option String
  | _, 0 => none
  | counter, fuel + 1 =>
    if mkSuffixed st su counter ∈ existing then uniqueLoop existing st su (counter + 1) fuel
    else some (mkSuffixed st su counter)

/-- `_unique_target` from `main.py` over a directory listing: return the
name unchanged if free, else try `stem-1`, `stem-2`, … before the
extension until a free name is found. -/
def uniqueTarget (existing : List String) (name : String) : Option String :=
  if name ∈ existing then
    uniqueLoop existing (pathStemSuffix name).1 (pathStemSuffix name).2 1
      (existing.length + 1)
  else some name

/-- Total wrapper for `uniqueTarget`; the default branch is dead by
`uniqueTarget_isSome` below. -/
def uniqueTargetT (existing : List String) (name : String) : String :=
  (uniqueTarget existing name).getD name

/-- Archive-directory contents after moving `n` files all named `name` into
an initially empty archive directory (each move lands at the name chosen by
`_unique_target` and that name then exists for later moves). -/
def archiveAfterMoves (name : String) : Nat → List String
  | 0 => []
  | n + 1 =>
    archiveAfterMoves name n ++ [uniqueTargetT (archiveAfterMoves name n) name]

/-- The archive listing the spec predicts after `n` same-named moves: the
plain name first, then suffixes `-1`, `-2`, … in increasing order. -/
def expectedArchive (name : String) (n : Nat) : List String :=
  (List.range n).map (fun i =>
    if i = 0 then name
    else mkSuffixed (pathStemSuffix name).1 (pathStemSuffix name).2 i)

/-- Python truthiness of an optional string (`None` and `""` are falsy). -/
def isTruthyStr : Option String → Bool
  | none => false
  | some s => s ≠ ""

/-- `_auto_decide` from `ui.py`: take the first character of the configured
mode, lowercase it, accept it if it is `k`, `r` or `s`, otherwise raise
`ValueError`; indexing `mode[0]` on an empty string raises `IndexError`.
Raised exceptions are modelled as `Except.error`. -/
def autoDecide (mode : String) : Except String String :=
  match mode.data with
  | [] => .error "string index out of range"
  | c :: _ =>
    let short := c.toLower
    if short = 'k' ∨ short = 'r' ∨ short = 's' then .ok (String.singleton short)
    else .error ("Unsupported auto decision " ++ mode)

/-- `_prompt_for_decision` from `ui.py`, driven by a canned list of user
inputs: an empty input takes the prompt's default `"k"`; the answer is
stripped and lowercased; `"o"` opens the file and asks again; `k`/`r`/`s`
is returned; anything else prints an error and asks again.  `none` models a
user who never supplies a valid decision (the real loop keeps waiting). -/
def promptForDecision (paper : PaperCandidate) (summary : String) (dryRun : Bool) :
    List String → Option String
  | [] => none
  | i :: rest =>
    let raw := if i = "" then "k" else i
    let choice := lowerStr (trimStr raw)
    if choice = "o" then promptForDecision paper summary dryRun rest
    else if choice = "k" ∨ choice = "r" ∨ choice = "s" then some choice
    else promptForDecision paper summary dryRun rest

/-- One triage action `(paper, summary, decision)`, the tuple appended by
`triage_papers` in `ui.py`. -/
abbrev TriageAction : Type := PaperCandidate × String × String

/-- Outcome of the `triage_papers` loop: it can block forever at a prompt,
propagate the `ValueError` from `_auto_decide`, or finish with the action
list. -/
inductive TriageResult where
  | blocked
  | error (msg : String)
  | ok (actions : List TriageAction)
  deriving DecidableEq, Repr

/-- The `for index, paper in enumerate(papers, start=1)` loop of
`triage_papers`: summarise, then decide automatically when `auto_decision`
is truthy (an invalid value raises out of the whole loop), else prompt
with that paper's canned inputs. -/
def triageLoop (summaryFn : PaperCandidate → String) (dryRun : Bool)
    (autoDecision : Option String) (userInputs : Nat → List String) :
    Nat → List PaperCandidate → TriageResult
  | _, [] => .ok []
  | idx, p :: rest =>
    let summary := summaryFn p
    if isTruthyStr autoDecision then
      match autoDecide (autoDecision.getD "") with
      | .error e => .error e
      | .ok d =>
        match triageLoop summaryFn dryRun autoDecision userInputs (idx + 1) rest with
        | .ok actions => .ok ((p, summary, d) :: actions)
        | r => r
    else
      match promptForDecision p summary dryRun (userInputs idx) with
      | none => .blocked
      | some d =>
        match triageLoop summaryFn dryRun autoDecision userInputs (idx + 1) rest with
        | .ok actions => .ok ((p, summary, d) :: actions)
        | r => r

/-- `triage_papers` from `ui.py`. -/
def triage_papers (papers : List PaperCandidate) (summaryFn : PaperCandidate → String)
    (dryRun : Bool) (autoDecision : Option String) (userInputs : Nat → List String) :
    TriageResult :=
  triageLoop summaryFn dryRun autoDecision userInputs 1 papers

/-- The `auto_decision` section of the configuration (`enabled` flag and
the optional `default` key; `none` models an absent key, for which
`auto_cfg.get("default", "keep")` substitutes `"keep"`). -/
structure AutoDecisionCfg where
  enabled : Bool
  default : Option String := none
  deriving Repr

/-- `_resolve_decision_mode` from `main.py`: CLI override first, then the
configured automatic mode with its default, else interactive (`none`). -/
def resolveDecisionMode (autoCfg : AutoDecisionCfg) (argsAuto : Option String) :
    Option String :=
  if isTruthyStr argsAuto then argsAuto
  else if autoCfg.enabled then some (autoCfg.default.getD "keep")
  else none

/-- The entry dict built per action in `triage_once` (`str(args.dry_run)`
renders the flag as `"True"`/`"False"`). -/
structure LogEntry where
  timestamp : String
  title : String
  path : String
  summary : String
  decision : String
  dry_run : String
  deriving DecidableEq, Repr

/-- The log-entry dict `triage_once` builds for one action. -/
def logEntryOf (ts : String) (dryRun : Bool) (a : TriageAction) : LogEntry :=
  { timestamp := ts
    title := a.1.title
    path := a.1.path
    summary := a.2.1
    decision := a.2.2
    dry_run := if dryRun then "True" else "False" }

/-- The archival/logging loop of `triage_once` (`main.py` lines 140–155)
over the archive directory's listing: for each action in order, a `"r"`
decision outside dry-run moves the file to the `_unique_target` name (which
the directory then contains), and every action yields one log entry.
Returns the final archive listing, the moves performed (source path,
target name) and the log entries, both in action order. -/
def processActions (dryRun : Bool) (ts : String) :
    List String → List TriageAction → List String × List (String × String) × List LogEntry
  | archive, [] => (archive, [], [])
  | archive, a :: rest =>
    if a.2.2 = "r" ∧ dryRun = false then
      let t := uniqueTargetT archive (pathName a.1.path)
      let r := processActions dryRun ts (t :: archive) rest
      (r.1, (a.1.path, t) :: r.2.1, logEntryOf ts dryRun a :: r.2.2)
    else
      let r := processActions dryRun ts archive rest
      (r.1, r.2.1, logEntryOf ts dryRun a :: r.2.2)

/-- Result of one `triage_once` run: no papers found (early return),
blocked at a prompt, an exception, or completion with the final archive
listing, the moves performed and the log entries. -/
inductive RunResult where
  | noPapers
  | blocked
  | error (msg : String)
  | done (archive : List String) (moves : List (String × String)) (entries : List LogEntry)
  deriving DecidableEq, Repr

/-- Moves performed by a run (none unless it completed: an exception
propagates out of `triage_papers` before the archival loop starts). -/
def RunResult.moves : RunResult → List (String × String)
  | .done _ m _ => m
  | _ => []

/-- Log entries appended by a run. -/
def RunResult.entries : RunResult → List LogEntry
  | .done _ _ e => e
  | _ => []

/-- `triage_once` from `main.py` (digest and email are handled after the
loop and do not affect the run's moves or entries): discover papers,
return early when none, resolve the decision mode, run `triage_papers`,
then run the archival/logging loop. -/
def triage_once (folders : List Folder) (sources : List SourceOutcome)
    (archive0 : List String) (dryRun : Bool) (autoCfg : AutoDecisionCfg)
    (argsAuto : Option String) (userInputs : Nat → List String)
    (summaryFn : PaperCandidate → String) (ts : String) : RunResult :=
  if (discover_papers folders sources).isEmpty then .noPapers
  else
    match triage_papers (discover_papers folders sources) summaryFn dryRun
        (resolveDecisionMode autoCfg argsAuto) userInputs with
    | .blocked => .blocked
    | .error e => .error e
    | .ok actions =>
      .done (processActions dryRun ts archive0 actions).1
        (processActions dryRun ts archive0 actions).2.1
        (processActions dryRun ts archive0 actions).2.2

/-- `LOG_FIELDS` from `log.py`: the fixed six-column header. -/
def LOG_FIELDS : List String :=
  ["timestamp", "title", "path", "summary", "decision", "dry_run"]

/-- The CSV row `DictWriter` writes for one entry (fields in `LOG_FIELDS`
order). -/
def rowOf (e : LogEntry) : List String :=
  [e.timestamp, e.title, e.path, e.summary, e.decision, e.dry_run]

/-- `append_log_entry` from `log.py` on the log file's contents (`none`
models a file that does not exist yet): opening in append mode creates the
file, the header is written exactly when the file did not exist, then one
row is appended. -/
def append_log_entry (file : Option (List (List String))) (e : LogEntry) :
    List (List String) :=
  match file with
  | none => [LOG_FIELDS, rowOf e]
  | some rows => rows ++ [rowOf e]

/-- The per-action `append_log_entry` calls of one run, chained over the
file state. -/
def appendAll (file : Option (List (List String))) (entries : List LogEntry) :
    Option (List (List String)) :=
  entries.foldl (fun f e => some (append_log_entry f e)) file

/-- The `email` section of the configuration (`sender = ""` models a falsy
or missing sender). -/
structure EmailCfg where
  enabled : Bool
  smtp_host : String := "localhost"
  smtp_port : Nat := 587
  use_tls : Bool := true
  username : Option String := none
  password_env : Option String := none
  sender : String
  recipients : List String
  subject : String := "Weekly paper triage digest"
  deriving Repr

/-- How a `maybe_send_email` call ends.  Every early `return` in the code
is one constructor; `sendFailed` is the `except` branch that logs the
transport error and returns normally. -/
inductive EmailOutcome where
  | notEnabled
  | noEntries
  | missingSenderOrRecipients
  | missingPassword
  | sent
  | sendFailed
  deriving DecidableEq, Repr

/-- Whether an outcome reached `send_message` (the only network call). -/
def networkCalled : EmailOutcome → Bool
  | .sent => true
  | .sendFailed => true
  | _ => false

/-- `maybe_send_email` from `main.py`: no-op unless enabled, no-op without
entries, error-and-return on missing sender/recipients; the message body
and attachments are built locally (no network); with a truthy
`password_env` whose variable is unset or empty, error-and-return; then
`send_message` either succeeds (`transportOk`) or raises, which is caught
and logged. -/
def maybe_send_email (cfg : EmailCfg) (entries : List LogEntry)
    (env : String → Option String) (transportOk : Bool) : EmailOutcome :=
  if cfg.enabled = false then .notEnabled
  else if entries.isEmpty then .noEntries
  else if cfg.sender = "" ∨ cfg.recipients.isEmpty then .missingSenderOrRecipients
  else
    let attempt : EmailOutcome := if transportOk then .sent else .sendFailed
    if isTruthyStr cfg.password_env then
      match env (cfg.password_env.getD "") with
      | none => .missingPassword
      | some pw => if pw = "" then .missingPassword else attempt
    else attempt

/-! ### Helper lemmas -/

/-- Appending to an existing log file adds the rows one at a time. -/
theorem appendAll_some (entries : List LogEntry) :
    ∀ rows, appendAll (some rows) entries = some (rows ++ entries.map rowOf) := by
  induction entries with
  | nil => intro rows; simp [appendAll]
  | cons e es ih =>
    intro rows
    have h1 : appendAll (some rows) (e :: es) = appendAll (some (rows ++ [rowOf e])) es := rfl
    rw [h1, ih]
    simp

/-! ### C8 -/

/-- C8: `append_log_entry` writes the six-column header exactly when the
log file does not yet exist, appends exactly one row per call without
touching existing rows, and any nonempty run of appends on a fresh file
leaves one header row followed by one row per entry. -/
theorem C8_append_log_entry :
    (∀ (e : LogEntry) (entries : List LogEntry),
      appendAll none (e :: entries) = some (LOG_FIELDS :: (e :: entries).map rowOf))
    ∧ (∀ (rows : List (List String)) (e : LogEntry),
      append_log_entry (some rows) e = rows ++ [rowOf e])
    ∧ (∀ e : LogEntry, append_log_entry none e = [LOG_FIELDS, rowOf e]) := by
  refine ⟨?_, fun rows e => rfl, fun e => rfl⟩
  intro e entries
  have h1 : appendAll none (e :: entries) = appendAll (some [LOG_FIELDS, rowOf e]) entries := rfl
  rw [h1, appendAll_some]
  simp

/-! ### C9 -/

/-- C9: `maybe_send_email` makes no network call unless email is enabled
and the run produced entries; an empty sender or recipient list causes an
error return with no network call; a configured password environment
variable that is unset aborts the send before any network call; and a
transport failure yields the caught-and-logged `sendFailed` outcome (the
function returns normally) rather than aborting the run. -/
theorem C9_maybe_send_email :
    ∀ (cfg : EmailCfg) (entries : List LogEntry) (env : String → Option String)
      (transportOk : Bool),
    (¬(cfg.enabled = true ∧ entries ≠ []) →
      networkCalled (maybe_send_email cfg entries env transportOk) = false)
    ∧ (cfg.enabled = true → entries ≠ [] → (cfg.sender = "" ∨ cfg.recipients = []) →
      maybe_send_email cfg entries env transportOk = .missingSenderOrRecipients
        ∧ networkCalled .missingSenderOrRecipients = false)
    ∧ (∀ v, cfg.enabled = true → cfg.password_env = some v → v ≠ "" → env v = none →
      networkCalled (maybe_send_email cfg entries env transportOk) = false)
    ∧ (networkCalled (maybe_send_email cfg entries env transportOk) = true →
      (maybe_send_email cfg entries env transportOk = .sent ↔ transportOk = true)) := by
  intro cfg entries env transportOk
  refine ⟨?_, ?_, ?_, ?_⟩
  · intro h
    by_cases he : cfg.enabled = true
    · have hne : entries = [] := by
        by_contra hne
        exact h ⟨he, hne⟩
      subst hne
      simp [maybe_send_email, he, networkCalled]
    · have he' : cfg.enabled = false := by
        cases hb : cfg.enabled
        · rfl
        · exact absurd hb he
      simp [maybe_send_email, he', networkCalled]
  · intro he hne hsr
    have hE : entries.isEmpty = false := by
      cases entries with
      | nil => exact absurd rfl hne
      | cons a l => rfl
    rcases hsr with h | h
    · simp [maybe_send_email, he, hE, h, networkCalled]
    · simp [maybe_send_email, he, hE, h, networkCalled]
  · intro v he hpw hv henv
    by_cases hE : entries.isEmpty
    · simp [maybe_send_email, he, hE, networkCalled]
    · by_cases hs : cfg.sender = ""
      · simp [maybe_send_email, he, hE, hs, networkCalled]
      · by_cases hr : cfg.recipients.isEmpty
        · simp [maybe_send_email, he, hE, hs, hr, networkCalled]
        · have htr : isTruthyStr cfg.password_env = true := by
            simp [hpw, isTruthyStr, hv]
          simp [maybe_send_email, he, hE, hs, hr, htr, hpw, henv, networkCalled,
            isTruthyStr, hv]
  · by_cases he : cfg.enabled = true
    · by_cases hE : entries.isEmpty
      · simp [maybe_send_email, he, hE, networkCalled]
      · by_cases hs : cfg.sender = ""
        · simp [maybe_send_email, he, hE, hs, networkCalled]
        · by_cases hr : cfg.recipients.isEmpty
          · simp [maybe_send_email, he, hE, hs, hr, networkCalled]
          · by_cases htr : isTruthyStr cfg.password_env = true
            · rcases henv : env (cfg.password_env.getD "") with _ | pw
              · simp [maybe_send_email, he, hE, hs, hr, htr, henv, networkCalled]
              · by_cases hpw : pw = ""
                · simp [maybe_send_email, he, hE, hs, hr, htr, henv, hpw, networkCalled]
                · cases transportOk
                  · simp [maybe_send_email, he, hE, hs, hr, htr, henv, hpw, networkCalled]
                  · simp [maybe_send_email, he, hE, hs, hr, htr, henv, hpw, networkCalled]
            · cases transportOk
              · simp [maybe_send_email, he, hE, hs, hr, htr, networkCalled]
              · simp [maybe_send_email, he, hE, hs, hr, htr, networkCalled]
    · have he' : cfg.enabled = false := by
        cases hb : cfg.enabled
        · rfl
        · exact absurd hb he
      simp [maybe_send_email, he', networkCalled]

/-- C9 witness: with email enabled, one entry, sender and recipient
present, and a configured password variable absent from the environment,
the dispatcher aborts without a network call. -/
theorem C9_maybe_send_email_witness :
    networkCalled (maybe_send_email
      { enabled := true, password_env := some "SMTP_PW", sender := "me@x",
        recipients := ["you@x"] }
      [{ timestamp := "t", title := "T", path := "a/p.pdf", summary := "s",
         decision := "k", dry_run := "False" }]
      (fun _ => none) true) = false :=
  (C9_maybe_send_email _ _ _ _).2.2.1 "SMTP_PW" rfl rfl (by decide) rfl

/-! ### Triage loop lemmas -/

/-- A successful triage loop produces exactly one action per paper, in
order, with the given paper as the action's first component. -/
theorem triageLoop_map_fst (f : PaperCandidate → String) (dryRun : Bool)
    (auto : Option String) (inputs : Nat → List String) :
    ∀ (papers : List PaperCandidate) (idx : Nat) (actions : List TriageAction),
      triageLoop f dryRun auto inputs idx papers = .ok actions →
      actions.map (·.1) = papers := by
  intro papers
  induction papers with
  | nil =>
    intro idx actions h
    cases h
    rfl
  | cons p rest ih =>
    intro idx actions h
    unfold triageLoop at h
    by_cases ht : isTruthyStr auto = true
    · rw [if_pos ht] at h
      cases hd : autoDecide (auto.getD "") with
      | error e => rw [hd] at h; cases h
      | ok d =>
        rw [hd] at h
        cases hr : triageLoop f dryRun auto inputs (idx + 1) rest with
        | ok acts =>
          rw [hr] at h
          cases h
          simp [ih _ _ hr]
        | blocked => rw [hr] at h; cases h
        | error e => rw [hr] at h; cases h
    · rw [if_neg ht] at h
      cases hp : promptForDecision p (f p) dryRun (inputs idx) with
      | none => rw [hp] at h; cases h
      | some d =>
        rw [hp] at h
        cases hr : triageLoop f dryRun auto inputs (idx + 1) rest with
        | ok acts =>
          rw [hr] at h
          cases h
          simp [ih _ _ hr]
        | blocked => rw [hr] at h; cases h
        | error e => rw [hr] at h; cases h

/-- The interactive prompt only ever returns `k`, `r` or `s`. -/
theorem promptForDecision_mem (paper : PaperCandidate) (summary : String)
    (dryRun : Bool) :
    ∀ (inputs : List String) (d : String),
      promptForDecision paper summary dryRun inputs = some d →
      d = "k" ∨ d = "r" ∨ d = "s" := by
  intro inputs
  induction inputs with
  | nil => intro d h; cases h
  | cons i rest ih =>
    intro d h
    unfold promptForDecision at h
    by_cases ho : lowerStr (trimStr (if i = "" then "k" else i)) = "o"
    · rw [if_pos ho] at h
      exact ih d h
    · rw [if_neg ho] at h
      by_cases hv : lowerStr (trimStr (if i = "" then "k" else i)) = "k" ∨
          lowerStr (trimStr (if i = "" then "k" else i)) = "r" ∨
          lowerStr (trimStr (if i = "" then "k" else i)) = "s"
      · rw [if_pos hv] at h
        cases h
        exact hv
      · rw [if_neg hv] at h
        exact ih d h

/-- `_auto_decide` only ever returns `k`, `r` or `s`. -/
theorem autoDecide_mem :
    ∀ (m d : String), autoDecide m = .ok d → d = "k" ∨ d = "r" ∨ d = "s" := by
  intro m d h
  unfold autoDecide at h
  cases hm : m.data with
  | nil => rw [hm] at h; cases h
  | cons c cs =>
    rw [hm] at h
    change (if c.toLower = 'k' ∨ c.toLower = 'r' ∨ c.toLower = 's' then
        Except.ok (String.singleton c.toLower)
      else Except.error ("Unsupported auto decision " ++ m)) = Except.ok d at h
    by_cases hc : c.toLower = 'k' ∨ c.toLower = 'r' ∨ c.toLower = 's'
    · rw [if_pos hc] at h
      cases h
      rcases hc with h1 | h1 | h1 <;> rw [h1]
      · left; rfl
      · right; left; rfl
      · right; right; rfl
    · rw [if_neg hc] at h
      cases h

/-- Every decision in a successful triage loop is `k`, `r` or `s`. -/
theorem triageLoop_decisions (f : PaperCandidate → String) (dryRun : Bool)
    (auto : Option String) (inputs : Nat → List String) :
    ∀ (papers : List PaperCandidate) (idx : Nat) (actions : List TriageAction),
      triageLoop f dryRun auto inputs idx papers = .ok actions →
      ∀ a ∈ actions, a.2.2 = "k" ∨ a.2.2 = "r" ∨ a.2.2 = "s" := by
  intro papers
  induction papers with
  | nil =>
    intro idx actions h
    cases h
    intro a ha
    cases ha
  | cons p rest ih =>
    intro idx actions h
    unfold triageLoop at h
    by_cases ht : isTruthyStr auto = true
    · rw [if_pos ht] at h
      cases hd : autoDecide (auto.getD "") with
      | error e => rw [hd] at h; cases h
      | ok d =>
        rw [hd] at h
        cases hr : triageLoop f dryRun auto inputs (idx + 1) rest with
        | ok acts =>
          rw [hr] at h
          cases h
          intro a ha
          rcases List.mem_cons.mp ha with ha | ha
          · subst ha
            exact autoDecide_mem _ _ hd
          · exact ih _ _ hr a ha
        | blocked => rw [hr] at h; cases h
        | error e => rw [hr] at h; cases h
    · rw [if_neg ht] at h
      cases hp : promptForDecision p (f p) dryRun (inputs idx) with
      | none => rw [hp] at h; cases h
      | some d =>
        rw [hp] at h
        cases hr : triageLoop f dryRun auto inputs (idx + 1) rest with
        | ok acts =>
          rw [hr] at h
          cases h
          intro a ha
          rcases List.mem_cons.mp ha with ha | ha
          · subst ha
            exact promptForDecision_mem _ _ _ _ _ hp
          · exact ih _ _ hr a ha
        | blocked => rw [hr] at h; cases h
        | error e => rw [hr] at h; cases h

/-- The archival loop appends one log entry per action, in action order. -/
theorem processActions_entries (dryRun : Bool) (ts : String) :
    ∀ (actions : List TriageAction) (archive : List String),
      (processActions dryRun ts archive actions).2.2
        = actions.map (logEntryOf ts dryRun) := by
  intro actions
  induction actions with
  | nil => intro archive; rfl
  | cons a rest ih =>
    intro archive
    unfold processActions
    by_cases hc : a.2.2 = "r" ∧ dryRun = false
    · rw [if_pos hc]
      simp [ih]
    · rw [if_neg hc]
      simp [ih]

/-- In dry-run mode the archival loop moves nothing and leaves the archive
untouched, while still producing every log entry. -/
theorem processActions_dry (ts : String) :
    ∀ (actions : List TriageAction) (archive : List String),
      processActions true ts archive actions
        = (archive, [], actions.map (logEntryOf ts true)) := by
  intro actions
  induction actions with
  | nil => intro archive; rfl
  | cons a rest ih =>
    intro archive
    unfold processActions
    rw [if_neg (by simp)]
    simp [ih]

/-! ### C2 -/

/-- C2: a completed run produces exactly one action per discovered
candidate, in discovery order, and the log entries `triage_once` appends
are the actions' entries in the same order. -/
theorem C2_one_action_per_candidate :
    ∀ (folders : List Folder) (sources : List SourceOutcome) (archive0 : List String)
      (dryRun : Bool) (autoCfg : AutoDecisionCfg) (argsAuto : Option String)
      (inputs : Nat → List String) (f : PaperCandidate → String) (ts : String)
      (actions : List TriageAction),
      triage_papers (discover_papers folders sources) f dryRun
          (resolveDecisionMode autoCfg argsAuto) inputs = .ok actions →
      actions.length = (discover_papers folders sources).length
      ∧ actions.map (·.1) = discover_papers folders sources
      ∧ (triage_once folders sources archive0 dryRun autoCfg argsAuto inputs f ts).entries
          = actions.map (logEntryOf ts dryRun) := by
  intro folders sources archive0 dryRun autoCfg argsAuto inputs f ts actions h
  have hmap : actions.map (·.1) = discover_papers folders sources :=
    triageLoop_map_fst f dryRun _ inputs _ 1 actions h
  refine ⟨?_, hmap, ?_⟩
  · rw [← hmap]
    simp
  · unfold triage_once
    by_cases hP : (discover_papers folders sources).isEmpty
    · have hnil : discover_papers folders sources = [] := by
        cases hd : discover_papers folders sources
        · rfl
        · rw [hd] at hP; cases hP
      rw [hnil] at hmap
      have : actions = [] := by
        cases actions with
        | nil => rfl
        | cons a l => cases hmap
      subst this
      simp [hP, hnil, RunResult.entries]
    · simp only [hP]
      rw [if_neg (by simp [hP])]
      rw [h]
      simp [RunResult.entries, processActions_entries]

/-- C2 witness: a one-folder, one-PDF automatic run yields one action and
its single log entry. -/
theorem C2_one_action_per_candidate_witness :
    (triage_once [⟨true, ["a/p.pdf"]⟩] [] [] false ⟨false, none⟩ (some "keep")
        (fun _ => []) (fun _ => "sum") "t").entries
      = [((⟨"a/p.pdf", "p", none⟩ : PaperCandidate), "sum", "k")].map (logEntryOf "t" false) :=
  (C2_one_action_per_candidate [⟨true, ["a/p.pdf"]⟩] [] [] false ⟨false, none⟩
    (some "keep") (fun _ => []) (fun _ => "sum") "t" _ (by decide)).2.2

/-! ### C7 -/

/-- C7: every decision stored in a produced action — whether from the
interactive prompt or the automatic decider — is one of `k`, `r`, `s`
(the code's encodings of keep, remove, skip). -/
theorem C7_decision_range :
    ∀ (papers : List PaperCandidate) (f : PaperCandidate → String) (dryRun : Bool)
      (auto : Option String) (inputs : Nat → List String) (actions : List TriageAction),
      triage_papers papers f dryRun auto inputs = .ok actions →
      ∀ a ∈ actions, a.2.2 = "k" ∨ a.2.2 = "r" ∨ a.2.2 = "s" :=
  fun _ f dryRun auto inputs actions h =>
    triageLoop_decisions f dryRun auto inputs _ 1 actions h

/-- C7 witness: an interactive run where the user tries an invalid answer,
opens the file, then removes, stores decision `r`. -/
theorem C7_decision_range_witness :
    (((⟨"a/p.pdf", "p", none⟩ : PaperCandidate), "sum", "r") : TriageAction).2.2 = "k"
      ∨ (((⟨"a/p.pdf", "p", none⟩ : PaperCandidate), "sum", "r") : TriageAction).2.2 = "r"
      ∨ (((⟨"a/p.pdf", "p", none⟩ : PaperCandidate), "sum", "r") : TriageAction).2.2 = "s" :=
  C7_decision_range [⟨"a/p.pdf", "p", none⟩] (fun _ => "sum") false none
    (fun _ => ["x", "o", "R "])
    [((⟨"a/p.pdf", "p", none⟩ : PaperCandidate), "sum", "r")] (by decide)
    ((⟨"a/p.pdf", "p", none⟩ : PaperCandidate), "sum", "r") (by decide)

/-! ### C10 -/

/-- With automatic mode enabled and `some "keep"` resolved, the loop keeps
every paper. -/
theorem triageLoop_keep (f : PaperCandidate → String) (dryRun : Bool)
    (inputs : Nat → List String) :
    ∀ (papers : List PaperCandidate) (idx : Nat),
      triageLoop f dryRun (some "keep") inputs idx papers
        = .ok (papers.map fun p => (p, f p, "k")) := by
  intro papers
  induction papers with
  | nil => intro idx; rfl
  | cons p rest ih =>
    intro idx
    have ht : isTruthyStr (some "keep") = true := rfl
    have hk : autoDecide "keep" = Except.ok "k" := rfl
    simp [triageLoop, ht, hk, ih]

/-- C10: with no per-run override, automatic mode enabled and no configured
default, the decision resolver yields the fixed decision keep, and every
paper is decided `k` without consulting the interactive collaborator. -/
theorem C10_default_decision_keep :
    resolveDecisionMode { enabled := true, default := none } none = some "keep"
    ∧ ∀ (papers : List PaperCandidate) (f : PaperCandidate → String) (dryRun : Bool)
        (inputs : Nat → List String),
      triage_papers papers f dryRun
          (resolveDecisionMode { enabled := true, default := none } none) inputs
        = .ok (papers.map fun p => (p, f p, "k")) := by
  refine ⟨rfl, ?_⟩
  intro papers f dryRun inputs
  exact triageLoop_keep f dryRun inputs papers 1

/-! ### Run-shape lemmas for `triage_once` -/

/-- A run over a nonempty candidate list whose triage loop finishes is a
`done` run built by the archival loop. -/
theorem triage_once_done (folders : List Folder) (sources : List SourceOutcome)
    (archive0 : List String) (dryRun : Bool) (autoCfg : AutoDecisionCfg)
    (argsAuto : Option String) (inputs : Nat → List String)
    (f : PaperCandidate → String) (ts : String) (actions : List TriageAction)
    (hP : (discover_papers folders sources).isEmpty = false)
    (hok : triage_papers (discover_papers folders sources) f dryRun
      (resolveDecisionMode autoCfg argsAuto) inputs = .ok actions) :
    triage_once folders sources archive0 dryRun autoCfg argsAuto inputs f ts
      = .done (processActions dryRun ts archive0 actions).1
          (processActions dryRun ts archive0 actions).2.1
          (processActions dryRun ts archive0 actions).2.2 := by
  unfold triage_once
  rw [if_neg (by simp [hP]), hok]

/-- A run whose triage loop blocks or raises produces no `done` result
(and hence no moves and no entries). -/
theorem triage_once_not_ok (folders : List Folder) (sources : List SourceOutcome)
    (archive0 : List String) (dryRun : Bool) (autoCfg : AutoDecisionCfg)
    (argsAuto : Option String) (inputs : Nat → List String)
    (f : PaperCandidate → String) (ts : String) :
    ((triage_once folders sources archive0 dryRun autoCfg argsAuto inputs f ts).moves = []
        ∧ (triage_once folders sources archive0 dryRun autoCfg argsAuto inputs f ts).entries = [])
      ∨ ∃ actions, triage_papers (discover_papers folders sources) f dryRun
          (resolveDecisionMode autoCfg argsAuto) inputs = .ok actions
        ∧ (discover_papers folders sources).isEmpty = false := by
  unfold triage_once
  by_cases hP : (discover_papers folders sources).isEmpty
  · left
    simp [hP, RunResult.moves, RunResult.entries]
  · rw [if_neg (by simp [hP])]
    cases hr : triage_papers (discover_papers folders sources) f dryRun
        (resolveDecisionMode autoCfg argsAuto) inputs with
    | blocked => left; exact ⟨rfl, rfl⟩
    | error e => left; exact ⟨rfl, rfl⟩
    | ok actions =>
      right
      exact ⟨actions, rfl, by simp at hP; simp [hP]⟩

/-! ### C5 -/

/-- C5: with the dry-run flag set no file is moved (whatever the
decisions), the archive listing is untouched, yet one log entry is still
produced per action, in order, and each entry records `dry_run = "True"`. -/
theorem C5_dry_run_no_moves :
    ∀ (folders : List Folder) (sources : List SourceOutcome) (archive0 : List String)
      (autoCfg : AutoDecisionCfg) (argsAuto : Option String)
      (inputs : Nat → List String) (f : PaperCandidate → String) (ts : String),
      (triage_once folders sources archive0 true autoCfg argsAuto inputs f ts).moves = []
      ∧ (∀ e ∈ (triage_once folders sources archive0 true autoCfg argsAuto inputs f ts).entries,
          e.dry_run = "True")
      ∧ (∀ actions, (discover_papers folders sources).isEmpty = false →
          triage_papers (discover_papers folders sources) f true
            (resolveDecisionMode autoCfg argsAuto) inputs = .ok actions →
          triage_once folders sources archive0 true autoCfg argsAuto inputs f ts
            = .done archive0 [] (actions.map (logEntryOf ts true))) := by
  intro folders sources archive0 autoCfg argsAuto inputs f ts
  have hdone : ∀ actions, (discover_papers folders sources).isEmpty = false →
      triage_papers (discover_papers folders sources) f true
        (resolveDecisionMode autoCfg argsAuto) inputs = .ok actions →
      triage_once folders sources archive0 true autoCfg argsAuto inputs f ts
        = .done archive0 [] (actions.map (logEntryOf ts true)) := by
    intro actions hP hok
    rw [triage_once_done folders sources archive0 true autoCfg argsAuto inputs f ts
      actions hP hok]
    rw [processActions_dry]
  refine ⟨?_, ?_, hdone⟩
  · rcases triage_once_not_ok folders sources archive0 true autoCfg argsAuto inputs f ts
      with h | ⟨actions, hok, hP⟩
    · exact h.1
    · rw [hdone actions hP hok]
      rfl
  · intro e he
    rcases triage_once_not_ok folders sources archive0 true autoCfg argsAuto inputs f ts
      with h | ⟨actions, hok, hP⟩
    · rw [h.2] at he
      cases he
    · rw [hdone actions hP hok] at he
      simp only [RunResult.entries] at he
      rcases List.mem_map.mp he with ⟨a, _, ha⟩
      rw [← ha]
      rfl

/-- C5 witness: a dry run with automatic decision `remove` still moves
nothing and logs its single action with `dry_run = "True"`. -/
theorem C5_dry_run_no_moves_witness :
    triage_once [⟨true, ["a/p.pdf"]⟩] [] [] true ⟨false, none⟩ (some "remove")
        (fun _ => []) (fun _ => "sum") "t"
      = .done [] [] ([((⟨"a/p.pdf", "p", none⟩ : PaperCandidate), "sum", "r")].map
          (logEntryOf "t" true)) :=
  (C5_dry_run_no_moves [⟨true, ["a/p.pdf"]⟩] [] [] ⟨false, none⟩ (some "remove")
      (fun _ => []) (fun _ => "sum") "t").2.2
    [((⟨"a/p.pdf", "p", none⟩ : PaperCandidate), "sum", "r")] (by decide) (by decide)

/-! ### C6 -/

/-- C6 counterexample: the configured value `"kangaroo"` does not
normalise, case-insensitively, to a single-letter or full-word form of
keep/remove/skip, yet `_auto_decide` accepts it (as keep), because the
code checks only the first character. -/
theorem C6_counterexample :
    autoDecide "kangaroo" = Except.ok "k"
    ∧ ¬(lowerStr "kangaroo" = "k" ∨ lowerStr "kangaroo" = "keep"
        ∨ lowerStr "kangaroo" = "r" ∨ lowerStr "kangaroo" = "remove"
        ∨ lowerStr "kangaroo" = "s" ∨ lowerStr "kangaroo" = "skip") := by
  constructor
  · rfl
  · decide

/-- C6 (amended): a nonempty configured decision string is accepted
exactly when its first character lowercases to `k`, `r` or `s`; a rejected
value raises a `ValueError` that aborts the run while handling the first
candidate, before any file is moved. -/
theorem C6_first_letter_acceptance :
    ∀ (mode : String), mode ≠ "" →
      ((∃ d, autoDecide mode = Except.ok d) ↔
        ((mode.data.headD ' ').toLower = 'k' ∨ (mode.data.headD ' ').toLower = 'r'
          ∨ (mode.data.headD ' ').toLower = 's'))
      ∧ (∀ e, autoDecide mode = Except.error e →
          ∀ (folders : List Folder) (sources : List SourceOutcome)
            (archive0 : List String) (dryRun : Bool) (autoCfg : AutoDecisionCfg)
            (inputs : Nat → List String) (f : PaperCandidate → String) (ts : String),
            (discover_papers folders sources).isEmpty = false →
            triage_once folders sources archive0 dryRun autoCfg (some mode) inputs f ts
              = .error e
            ∧ (RunResult.error e).moves = []) := by
  intro mode hm
  constructor
  · cases hdata : mode.data with
    | nil =>
      exfalso
      apply hm
      cases mode with
      | mk l =>
        simp only at hdata
        rw [hdata]
    | cons c cs =>
      unfold autoDecide
      rw [hdata]
      by_cases hc : c.toLower = 'k' ∨ c.toLower = 'r' ∨ c.toLower = 's'
      · constructor
        · intro _
          simpa using hc
        · intro _
          refine ⟨String.singleton c.toLower, ?_⟩
          change (if c.toLower = 'k' ∨ c.toLower = 'r' ∨ c.toLower = 's' then
              Except.ok (String.singleton c.toLower)
            else Except.error ("Unsupported auto decision " ++ mode)) = _
          rw [if_pos hc]
      · constructor
        · intro ⟨d, hd⟩
          exfalso
          change (if c.toLower = 'k' ∨ c.toLower = 'r' ∨ c.toLower = 's' then
              Except.ok (String.singleton c.toLower)
            else Except.error ("Unsupported auto decision " ++ mode)) = _ at hd
          rw [if_neg hc] at hd
          cases hd
        · intro h
          exfalso
          apply hc
          simpa using h
  · intro e he folders sources archive0 dryRun autoCfg inputs f ts hP
    have hmode : resolveDecisionMode autoCfg (some mode) = some mode := by
      unfold resolveDecisionMode
      rw [if_pos]
      simp [isTruthyStr, hm]
    refine ⟨?_, rfl⟩
    have htp : triage_papers (discover_papers folders sources) f dryRun (some mode) inputs
        = .error e := by
      cases hd : discover_papers folders sources with
      | nil => rw [hd] at hP; cases hP
      | cons p rest =>
        unfold triage_papers triageLoop
        rw [if_pos (by simp [isTruthyStr, hm])]
        rw [show (some mode).getD "" = mode from rfl, he]
    unfold triage_once
    rw [if_neg (by simp [hP]), hmode, htp]

/-- C6 witness: the value `"x"` is rejected and a run over one candidate
aborts with the `ValueError` before moving anything. -/
theorem C6_first_letter_acceptance_witness :
    (¬∃ d, autoDecide "x" = Except.ok d)
    ∧ triage_once [⟨true, ["a/p.pdf"]⟩] [] [] false ⟨false, none⟩ (some "x")
        (fun _ => []) (fun _ => "sum") "t"
      = .error ("Unsupported auto decision " ++ "x") := by
  have h := C6_first_letter_acceptance "x" (by decide)
  constructor
  · intro hd
    have := h.1.mp hd
    revert this
    decide
  · exact (h.2 ("Unsupported auto decision " ++ "x") rfl [⟨true, ["a/p.pdf"]⟩] [] []
      false ⟨false, none⟩ (fun _ => []) (fun _ => "sum") "t" (by decide)).1

/-! ### C3 -/

/-- Inserting a concatenation is inserting the parts in order. -/
theorem insertRecords_append (lk : String → Option MetadataRecord)
    (xs ys : List MetadataRecord) :
    insertRecords lk (xs ++ ys) = insertRecords (insertRecords lk xs) ys := by
  simp [insertRecords, List.foldl_append]

/-- Folding the per-source inserts equals one insert pass over the
flattened record stream. -/
theorem buildMetadataLookup_flat :
    ∀ (sources : List SourceOutcome) (lk : String → Option MetadataRecord),
      sources.foldl (fun l s => insertRecords l s.records) lk
        = insertRecords lk ((sources.map SourceOutcome.records).flatten) := by
  intro sources
  induction sources with
  | nil => intro lk; simp [insertRecords]
  | cons s ss ih =>
    intro lk
    simp only [List.foldl_cons, List.map_cons, List.flatten_cons]
    rw [ih, insertRecords_append]

/-- `Option.or` of a cons's last element. -/
theorem or_getLast? (l : List MetadataRecord) (r : MetadataRecord) :
    Option.or l.getLast? (some r) = (r :: l).getLast? := by
  cases hg : l.getLast? with
  | some x => simp [List.getLast?_cons, hg, Option.or]
  | none =>
    have : l = [] := by
      cases l with
      | nil => rfl
      | cons b bs => simp [List.getLast?_cons] at hg
    subst this
    rfl

/-- One insert pass reads back as: the last matching record in the list,
falling back to whatever the incoming lookup held. -/
theorem insertRecords_eval :
    ∀ (rs : List MetadataRecord) (lk : String → Option MetadataRecord) (k : String),
      k ≠ "" →
      insertRecords lk rs k
        = Option.or ((rs.filter (fun r => r.file_key = k)).getLast?) (lk k) := by
  intro rs
  induction rs with
  | nil => intro lk k hk; simp [insertRecords, Option.or]
  | cons r rest ih =>
    intro lk k hk
    have hstep : insertRecords lk (r :: rest)
        = insertRecords (if r.file_key = "" then lk else insertRecord lk r) rest := rfl
    rw [hstep, ih _ _ hk]
    by_cases hkey : r.file_key = k
    · have hne : r.file_key ≠ "" := by rw [hkey]; exact hk
      rw [if_neg hne]
      have h1 : insertRecord lk r k = some r := by simp [insertRecord, hkey]
      rw [h1]
      have hf : (r :: rest).filter (fun r => r.file_key = k)
          = r :: rest.filter (fun r => r.file_key = k) := by
        simp [List.filter_cons, hkey]
      rw [hf, ← or_getLast?]
      cases hX : (rest.filter (fun r => r.file_key = k)).getLast? <;> simp [Option.or]
    · have hf : (r :: rest).filter (fun r => r.file_key = k)
          = rest.filter (fun r => r.file_key = k) := by
        simp [List.filter_cons, hkey]
      rw [hf]
      by_cases hemp : r.file_key = ""
      · rw [if_pos hemp]
      · rw [if_neg hemp]
        have h1 : insertRecord lk r k = lk k := by
          show (if k = r.file_key then some r else lk k) = lk k
          rw [if_neg (fun h => hkey h.symm)]
        rw [h1]

/-- C3: after `_build_metadata_lookup`, every nonempty `file_key` that any
source defines maps to exactly the last record for that key in source
processing order (overwrite-on-insert, whole records, no field merge). -/
theorem C3_last_source_wins :
    ∀ (sources : List SourceOutcome) (k : String), k ≠ "" →
      buildMetadataLookup sources k
        = (((sources.map SourceOutcome.records).flatten).filter
            (fun r => r.file_key = k)).getLast? := by
  intro sources k hk
  unfold buildMetadataLookup
  rw [buildMetadataLookup_flat, insertRecords_eval _ _ _ hk]
  cases hX : (((sources.map SourceOutcome.records).flatten).filter
      (fun r => r.file_key = k)).getLast? <;> simp [Option.or, emptyLookup]

/-- C3 witness: two sources defining `p.pdf` — the second one's record,
with different fields, is what the lookup holds (no merge with the
first). -/
theorem C3_last_source_wins_witness :
    buildMetadataLookup
      [.parsed [{ title := "Old", file_key := "p.pdf", source := "bm.json" }],
       .parsed [{ title := "New", file_key := "p.pdf", authors := some "A",
                  year := some "2024", source := "zotero.csv" }]] "p.pdf"
      = some { title := "New", file_key := "p.pdf", authors := some "A",
               year := some "2024", source := "zotero.csv" } := by
  rw [C3_last_source_wins
    [.parsed [{ title := "Old", file_key := "p.pdf", source := "bm.json" }],
     .parsed [{ title := "New", file_key := "p.pdf", authors := some "A",
                year := some "2024", source := "zotero.csv" }]] "p.pdf" (by decide)]
  decide

/-! ### C1 -/

/-- The nested folder/file loops of `discover_papers` flatten to one loop
over the PDF enumerations of the present folders, in order. -/
theorem discover_papers_flat (lookup : String → Option MetadataRecord) :
    ∀ (folders : List Folder) (st : List String × List PaperCandidate),
      folders.foldl
        (fun st folder =>
          if folder.present then folder.pdfs.foldl (discoverStep lookup) st else st) st
      = (((folders.filter (fun fo => fo.present)).map Folder.pdfs).flatten).foldl
          (discoverStep lookup) st := by
  intro folders
  induction folders with
  | nil => intro st; rfl
  | cons fo fos ih =>
    intro st
    by_cases hp : fo.present = true
    · have h2 : (fo :: fos).filter (fun fo => fo.present)
          = fo :: fos.filter (fun fo => fo.present) := by
        simp [List.filter_cons, hp]
      rw [List.foldl_cons, if_pos hp, ih, h2]
      simp [List.foldl_append]
    · have h2 : (fo :: fos).filter (fun fo => fo.present)
          = fos.filter (fun fo => fo.present) := by
        simp [List.filter_cons, hp]
      rw [List.foldl_cons, if_neg hp, ih, h2]

/-- Invariant of the discovery loop: the seen-set tracks exactly the paths
of the emitted candidates, those paths stay duplicate-free, and the
emitted path set is the input paths plus whatever was already emitted. -/
theorem discoverLoop_inv (lookup : String → Option MetadataRecord) :
    ∀ (L : List String) (seen : List String) (cands : List PaperCandidate),
      (∀ q, q ∈ seen ↔ q ∈ cands.map PaperCandidate.path) →
      (cands.map PaperCandidate.path).Nodup →
      (∀ q, q ∈ (L.foldl (discoverStep lookup) (seen, cands)).1 ↔
          q ∈ (L.foldl (discoverStep lookup) (seen, cands)).2.map PaperCandidate.path)
      ∧ ((L.foldl (discoverStep lookup) (seen, cands)).2.map PaperCandidate.path).Nodup
      ∧ (∀ q, q ∈ (L.foldl (discoverStep lookup) (seen, cands)).2.map PaperCandidate.path ↔
          (q ∈ cands.map PaperCandidate.path ∨ q ∈ L)) := by
  intro L
  induction L with
  | nil =>
    intro seen cands hseen hnodup
    exact ⟨hseen, hnodup, fun q => by simp⟩
  | cons p L ih =>
    intro seen cands hseen hnodup
    by_cases hp : p ∈ seen
    · have hstep : discoverStep lookup (seen, cands) p = (seen, cands) := by
        simp [discoverStep, hp]
      rw [List.foldl_cons, hstep]
      obtain ⟨h1, h2, h3⟩ := ih seen cands hseen hnodup
      refine ⟨h1, h2, fun q => ?_⟩
      rw [h3 q]
      have hpc := (hseen p).mp hp
      simp only [List.mem_cons]
      constructor
      · rintro (h | h)
        · exact Or.inl h
        · exact Or.inr (Or.inr h)
      · rintro (h | h | h)
        · exact Or.inl h
        · subst h; exact Or.inl hpc
        · exact Or.inr h
    · obtain ⟨c, hc, hstep⟩ : ∃ c : PaperCandidate, c.path = p ∧
          discoverStep lookup (seen, cands) p = (p :: seen, cands ++ [c]) := by
        refine ⟨⟨p, (match lookup (lowerStr (pathName p)) with
          | some r => if r.title = "" then pathStem p else r.title
          | none => pathStem p), lookup (lowerStr (pathName p))⟩, rfl, ?_⟩
        simp [discoverStep, hp]
      rw [List.foldl_cons, hstep]
      have hpm : p ∉ cands.map PaperCandidate.path := fun h => hp ((hseen p).mpr h)
      have hmap : (cands ++ [c]).map PaperCandidate.path
          = cands.map PaperCandidate.path ++ [p] := by
        simp [hc]
      have hseen' : ∀ q, q ∈ p :: seen ↔ q ∈ (cands ++ [c]).map PaperCandidate.path := by
        intro q
        rw [hmap]
        simp only [List.mem_cons, List.mem_append, List.mem_singleton,
          List.not_mem_nil, or_false]
        constructor
        · rintro (h | h)
          · exact Or.inr h
          · exact Or.inl ((hseen q).mp h)
        · rintro (h | h)
          · exact Or.inr ((hseen q).mpr h)
          · exact Or.inl h
      have hnodup' : ((cands ++ [c]).map PaperCandidate.path).Nodup := by
        rw [hmap, List.nodup_append]
        refine ⟨hnodup, by simp, ?_⟩
        intro x hx
        simp only [List.mem_singleton]
        intro hxp
        subst hxp
        exact hpm hx
      obtain ⟨h1, h2, h3⟩ := ih _ _ hseen' hnodup'
      refine ⟨h1, h2, fun q => ?_⟩
      rw [h3 q, hmap]
      simp only [List.mem_append, List.mem_singleton, List.mem_cons,
        List.not_mem_nil, or_false]
      constructor
      · rintro (h | h)
        · rcases h with h | h
          · exact Or.inl h
          · exact Or.inr (Or.inl h)
        · exact Or.inr (Or.inr h)
      · rintro (h | h | h)
        · exact Or.inl (Or.inl h)
        · exact Or.inl (Or.inr h)
        · exact Or.inr h

/-- C1: discovery emits no two candidates with the same (resolved) path —
a path already emitted is skipped — while every path enumerated in any
present folder is represented, so two different files with the same
filename in different folders are both kept. -/
theorem C1_no_duplicate_paths :
    ∀ (folders : List Folder) (sources : List SourceOutcome),
      ((discover_papers folders sources).map PaperCandidate.path).Nodup
      ∧ ∀ q, q ∈ (discover_papers folders sources).map PaperCandidate.path ↔
          q ∈ ((folders.filter (fun fo => fo.present)).map Folder.pdfs).flatten := by
  intro folders sources
  unfold discover_papers
  rw [discover_papers_flat]
  obtain ⟨h1, h2, h3⟩ := discoverLoop_inv (buildMetadataLookup sources)
    (((folders.filter (fun fo => fo.present)).map Folder.pdfs).flatten) [] []
    (by simp) (by simp)
  exact ⟨h2, fun q => by rw [h3 q]; simp⟩

/-! ### C4 -/

/-- `digitVal` inverts `digitChar` on digits. -/
theorem digitVal_digitChar : ∀ d, d < 10 → digitVal (digitChar d) = d := by
  decide

/-- Reading one more (least significant) digit. -/
theorem ofDecimal_append_digit (l : List Char) (c : Char) :
    ofDecimal (l ++ [c]) = ofDecimal l * 10 + digitVal c := by
  simp [ofDecimal, List.foldl_append]

/-- With enough fuel the digit rendering round-trips. -/
theorem ofDecimal_toDecimalGo :
    ∀ (fuel n : Nat), n < fuel → ofDecimal (toDecimalGo fuel n) = n := by
  intro fuel
  induction fuel with
  | zero => intro n h; omega
  | succ fuel ih =>
    intro n h
    unfold toDecimalGo
    by_cases h10 : n < 10
    · rw [if_pos h10]
      simp [ofDecimal, digitVal_digitChar n h10]
    · rw [if_neg h10]
      rw [ofDecimal_append_digit]
      have hdiv : n / 10 < fuel := by
        have h1 : n / 10 < n := Nat.div_lt_self (by omega) (by omega)
        omega
      rw [ih _ hdiv, digitVal_digitChar _ (Nat.mod_lt _ (by omega))]
      omega

/-- Two equal `String`s have equal character lists, and conversely. -/
theorem strOfData_inj (s t : String) (h : s.data = t.data) : s = t := by
  cases s
  cases t
  exact congrArg String.mk h

/-- Python's decimal rendering of naturals is injective. -/
theorem natToDecimal_inj : ∀ m n : Nat, natToDecimal m = natToDecimal n → m = n := by
  intro m n h
  have hd : toDecimalGo (m + 1) m = toDecimalGo (n + 1) n := congrArg String.data h
  calc m = ofDecimal (toDecimalGo (m + 1) m) :=
        (ofDecimal_toDecimalGo _ _ (by omega)).symm
    _ = ofDecimal (toDecimalGo (n + 1) n) := by rw [hd]
    _ = n := ofDecimal_toDecimalGo _ _ (by omega)

/-- The digit rendering is never empty. -/
theorem toDecimalGo_ne_nil : ∀ (fuel n : Nat), 0 < fuel → toDecimalGo fuel n ≠ [] := by
  intro fuel n h
  cases fuel with
  | zero => omega
  | succ fuel =>
    unfold toDecimalGo
    by_cases h10 : n < 10
    · rw [if_pos h10]; simp
    · rw [if_neg h10]; simp

/-- The character list of a suffixed candidate name. -/
theorem mkSuffixed_data (st su : String) (k : Nat) :
    (mkSuffixed st su k).data = st.data ++ '-' :: ((natToDecimal k).data ++ su.data) := by
  simp [mkSuffixed, String.data_append]

/-- Different counters give different candidate names. -/
theorem mkSuffixed_inj (st su : String) :
    ∀ j k : Nat, mkSuffixed st su j = mkSuffixed st su k → j = k := by
  intro j k h
  have hd := congrArg String.data h
  rw [mkSuffixed_data, mkSuffixed_data] at hd
  have h2 := List.append_cancel_left hd
  injection h2 with _ h3
  have hlen : (natToDecimal j).data.length = (natToDecimal k).data.length := by
    have h5 := congrArg List.length h3
    simp only [List.length_append] at h5
    omega
  obtain ⟨h4, _⟩ := List.append_inj h3 hlen
  exact natToDecimal_inj j k (strOfData_inj _ _ h4)

/-- A suffixed candidate name is never the plain name (it is strictly
longer). -/
theorem mkSuffixed_ne_plain (st su : String) (k : Nat) :
    mkSuffixed st su k ≠ st ++ su := by
  intro h
  have hd := congrArg (fun s : String => s.data.length) h
  simp only [mkSuffixed_data, String.data_append, List.length_append,
    List.length_cons] at hd
  have hpos : 0 < (natToDecimal k).data.length :=
    List.length_pos.mpr (toDecimalGo_ne_nil _ _ (by omega))
  omega

/-- `(stem, suffix)` recombine to the original name. -/
theorem pathStemSuffix_append (name : String) :
    (pathStemSuffix name).1 ++ (pathStemSuffix name).2 = name := by
  unfold pathStemSuffix
  split
  · split
    · apply strOfData_inj
      rw [String.data_append]
      exact List.take_append_drop _ name.data
    · simp
  · simp

/-- Whatever the loop returns is a free name (the loop only stops when the
candidate does not exist). -/
theorem uniqueLoop_spec (existing : List String) (st su : String) :
    ∀ (fuel counter : Nat) (t : String),
      uniqueLoop existing st su counter fuel = some t →
      ∃ k, counter ≤ k ∧ t = mkSuffixed st su k ∧ mkSuffixed st su k ∉ existing
        ∧ ∀ j, counter ≤ j → j < k → mkSuffixed st su j ∈ existing := by
  intro fuel
  induction fuel with
  | zero => intro counter t h; cases h
  | succ fuel ih =>
    intro counter t h
    unfold uniqueLoop at h
    by_cases hm : mkSuffixed st su counter ∈ existing
    · rw [if_pos hm] at h
      obtain ⟨k, hk1, hk2, hk3, hk4⟩ := ih (counter + 1) t h
      refine ⟨k, by omega, hk2, hk3, fun j hj1 hj2 => ?_⟩
      by_cases hj : j = counter
      · rw [hj]; exact hm
      · exact hk4 j (by omega) hj2
    · rw [if_neg hm] at h
      cases h
      exact ⟨counter, le_refl _, rfl, hm, fun j hj1 hj2 => absurd hj2 (by omega)⟩

/-- If some counter within the fuel window is free, the loop succeeds. -/
theorem uniqueLoop_total (existing : List String) (st su : String) :
    ∀ (fuel counter : Nat),
      (∃ k, counter ≤ k ∧ k < counter + fuel ∧ mkSuffixed st su k ∉ existing) →
      ∃ t, uniqueLoop existing st su counter fuel = some t := by
  intro fuel
  induction fuel with
  | zero =>
    rintro counter ⟨k, h1, h2, _⟩
    omega
  | succ fuel ih =>
    rintro counter ⟨k, h1, h2, h3⟩
    unfold uniqueLoop
    by_cases hm : mkSuffixed st su counter ∈ existing
    · rw [if_pos hm]
      apply ih (counter + 1)
      refine ⟨k, ?_, by omega, h3⟩
      rcases Nat.eq_or_lt_of_le h1 with heq | hlt
      · exact absurd (heq ▸ hm) h3
      · omega
    · rw [if_neg hm]
      exact ⟨_, rfl⟩

/-- Pigeonhole: among the counters `1 … length + 1` some candidate name is
free, because the candidates are pairwise distinct and the directory is
finite. -/
theorem exists_free_counter (st su : String) (existing : List String) :
    ∃ k, 1 ≤ k ∧ k < existing.length + 2 ∧ mkSuffixed st su k ∉ existing := by
  by_contra hcon
  push_neg at hcon
  have hinj : Function.Injective (mkSuffixed st su) := fun a b h =>
    mkSuffixed_inj st su a b h
  have hsub : (Finset.Icc 1 (existing.length + 1)).image (mkSuffixed st su)
      ⊆ existing.toFinset := by
    intro x hx
    rcases Finset.mem_image.mp hx with ⟨k, hk, rfl⟩
    rcases Finset.mem_Icc.mp hk with ⟨hk1, hk2⟩
    exact List.mem_toFinset.mpr (hcon k hk1 (by omega))
  have hcard := Finset.card_le_card hsub
  rw [Finset.card_image_of_injective _ hinj, Nat.card_Icc] at hcard
  have hle := existing.toFinset_card_le
  omega

/-- Membership of a suffixed name in the predicted archive listing. -/
theorem mem_expectedArchive (name : String) (n j : Nat) (hj : 1 ≤ j) :
    mkSuffixed (pathStemSuffix name).1 (pathStemSuffix name).2 j ∈ expectedArchive name n
      ↔ j < n := by
  unfold expectedArchive
  simp only [List.mem_map, List.mem_range]
  constructor
  · rintro ⟨i, hi, hmk⟩
    by_cases hiz : i = 0
    · subst hiz
      rw [if_pos rfl] at hmk
      exfalso
      exact mkSuffixed_ne_plain (pathStemSuffix name).1 (pathStemSuffix name).2 j
        (by rw [pathStemSuffix_append]; exact hmk.symm)
    · rw [if_neg hiz] at hmk
      have := mkSuffixed_inj _ _ _ _ hmk
      omega
  · intro hjn
    exact ⟨j, hjn, by rw [if_neg (by omega)]⟩

/-- The plain name sits in every nonempty predicted listing. -/
theorem name_mem_expectedArchive (name : String) (n : Nat) (hn : 1 ≤ n) :
    name ∈ expectedArchive name n := by
  unfold expectedArchive
  exact List.mem_map.mpr ⟨0, List.mem_range.mpr (by omega), by rw [if_pos rfl]⟩

/-- Moving the same name into the predicted listing lands on the next
suffix. -/
theorem uniqueTargetT_expected (name : String) :
    ∀ n, uniqueTargetT (expectedArchive name n) name
      = if n = 0 then name
        else mkSuffixed (pathStemSuffix name).1 (pathStemSuffix name).2 n := by
  intro n
  cases n with
  | zero => simp [expectedArchive, uniqueTargetT, uniqueTarget]
  | succ m =>
    rw [if_neg (by omega)]
    have hmem : name ∈ expectedArchive name (m + 1) :=
      name_mem_expectedArchive name (m + 1) (by omega)
    unfold uniqueTargetT uniqueTarget
    rw [if_pos hmem]
    have hlen : (expectedArchive name (m + 1)).length = m + 1 := by
      simp [expectedArchive]
    have hfree : mkSuffixed (pathStemSuffix name).1 (pathStemSuffix name).2 (m + 1)
        ∉ expectedArchive name (m + 1) := by
      rw [mem_expectedArchive name (m + 1) (m + 1) (by omega)]
      omega
    obtain ⟨t, ht⟩ := uniqueLoop_total (expectedArchive name (m + 1))
      (pathStemSuffix name).1 (pathStemSuffix name).2
      ((expectedArchive name (m + 1)).length + 1) 1
      ⟨m + 1, by omega, by rw [hlen]; omega, hfree⟩
    rw [ht]
    obtain ⟨k, hk1, hk2, hk3, hk4⟩ := uniqueLoop_spec _ _ _ _ 1 t ht
    have hkle : k ≤ m + 1 := by
      by_contra hgt
      push_neg at hgt
      exact hfree (hk4 (m + 1) (by omega) (by omega))
    have hkge : ¬(k < m + 1) := by
      intro hlt
      exact hk3 ((mem_expectedArchive name (m + 1) k hk1).mpr hlt)
    have hk : k = m + 1 := by omega
    rw [hk2, hk]
    rfl

/-- Iterated moves realise exactly the predicted listing. -/
theorem archiveAfterMoves_eq (name : String) :
    ∀ n, archiveAfterMoves name n = expectedArchive name n := by
  intro n
  induction n with
  | zero => rfl
  | succ m ih =>
    show archiveAfterMoves name m ++ [uniqueTargetT (archiveAfterMoves name m) name]
      = expectedArchive name (m + 1)
    rw [ih, uniqueTargetT_expected]
    unfold expectedArchive
    rw [List.range_succ]
    simp

/-- The predicted listing has no duplicates. -/
theorem expectedArchive_nodup (name : String) :
    ∀ n, (expectedArchive name n).Nodup := by
  intro n
  induction n with
  | zero => simp [expectedArchive]
  | succ m ih =>
    have hstep : expectedArchive name (m + 1)
        = expectedArchive name m ++ [if m = 0 then name
            else mkSuffixed (pathStemSuffix name).1 (pathStemSuffix name).2 m] := by
      unfold expectedArchive
      rw [List.range_succ]
      simp
    rw [hstep, List.nodup_append]
    refine ⟨ih, by simp, ?_⟩
    intro x hx
    simp only [List.mem_singleton]
    intro hxe
    subst hxe
    by_cases hm : m = 0
    · subst hm
      simp [expectedArchive] at hx
    · rw [if_neg hm] at hx
      have := (mem_expectedArchive name m m (by omega)).mp hx
      omega

/-- C4: `_unique_target` never returns a name already present, returns the
unsuffixed name when it is free, and otherwise returns
`stem-k.suffix` for the first free integer `k ≥ 1`; moving `n` files with
the same base name into an initially empty archive directory yields `n`
distinct names with monotonically increasing suffixes starting at the
unsuffixed name. -/
theorem C4_unique_target :
    ∀ (existing : List String) (name : String),
      (∀ t, uniqueTarget existing name = some t → t ∉ existing)
      ∧ (name ∉ existing → uniqueTarget existing name = some name)
      ∧ (name ∈ existing → ∃ k, 1 ≤ k
          ∧ uniqueTarget existing name
              = some (mkSuffixed (pathStemSuffix name).1 (pathStemSuffix name).2 k)
          ∧ mkSuffixed (pathStemSuffix name).1 (pathStemSuffix name).2 k ∉ existing
          ∧ ∀ j, 1 ≤ j → j < k →
              mkSuffixed (pathStemSuffix name).1 (pathStemSuffix name).2 j ∈ existing)
      ∧ (∀ n, archiveAfterMoves name n = expectedArchive name n
          ∧ (archiveAfterMoves name n).Nodup) := by
  intro existing name
  refine ⟨?_, ?_, ?_, ?_⟩
  · intro t h
    unfold uniqueTarget at h
    by_cases hn : name ∈ existing
    · rw [if_pos hn] at h
      obtain ⟨k, _, hk2, hk3, _⟩ := uniqueLoop_spec _ _ _ _ 1 t h
      rw [hk2]
      exact hk3
    · rw [if_neg hn] at h
      cases h
      exact hn
  · intro hn
    unfold uniqueTarget
    rw [if_neg hn]
  · intro hn
    unfold uniqueTarget
    rw [if_pos hn]
    obtain ⟨k0, hk01, hk02, hk03⟩ :=
      exists_free_counter (pathStemSuffix name).1 (pathStemSuffix name).2 existing
    obtain ⟨t, ht⟩ := uniqueLoop_total existing
      (pathStemSuffix name).1 (pathStemSuffix name).2 (existing.length + 1) 1
      ⟨k0, by omega, by omega, hk03⟩
    obtain ⟨k, hk1, hk2, hk3, hk4⟩ := uniqueLoop_spec _ _ _ _ 1 t ht
    exact ⟨k, hk1, by rw [ht, hk2], hk3, hk4⟩
  · intro n
    exact ⟨archiveAfterMoves_eq name n, by
      rw [archiveAfterMoves_eq name n]; exact expectedArchive_nodup name n⟩

/-- C4 witness: with `p.pdf` taken, the chosen target `p-1.pdf` does not
already exist; with the name free, it is returned unsuffixed. -/
theorem C4_unique_target_witness :
    "p-1.pdf" ∉ ["p.pdf"] ∧ uniqueTarget ["other.pdf"] "p.pdf" = some "p.pdf" :=
  ⟨(C4_unique_target ["p.pdf"] "p.pdf").1 "p-1.pdf" (by decide),
   (C4_unique_target ["other.pdf"] "p.pdf").2.1 (by decide)⟩
